import Mathlib

/-!
Verification of the drag-and-drop assignment model.

The program keeps two stores: an ordered Item Store (items, each optionally
tagged with the id of the slot holding it) and an ordered Slot Store (slots,
each holding an ordered list of item copies).  Four operations mutate them:
`assign` (drop an item on a slot), `addSlots`, `removeSlots`, `unassign`.
The definitions below are a direct shallow embedding of the component's
state and handlers (`handleDragEnd`, `addMoreSlots`, `removeTwoSlots`,
`removeItemFromSlot`).
-/

structure Item where
  id : String
  content : String
  slotId : Option String := none
deriving DecidableEq

structure Slot where
  id : String
  name : String
  items : List Item
deriving DecidableEq

/-- Modelled from the spec: the module `./const` (exporting `ENABLE_SLOT_LIMIT`
and `MAX_ITEMS_PER_SLOT`) is not among the sources; the spec describes the
configuration surface as two static options — `slotLimitEnabled : boolean` and
`maxItemsPerSlot : integer` — so the pair is modelled as an explicit parameter
of the operations that consult it. -/
structure Config where
  enableSlotLimit : Bool
  maxItemsPerSlot : Nat

structure AppState where
  items : List Item
  slots : List Slot
deriving DecidableEq

/-- The per-slot update performed by the `setSlots` callback of
`handleDragEnd`: the target slot appends a copy of the dragged item unless it
is already present or (limit enabled) full; every other slot filters the
dragged item out. -/
def assignSlot (cfg : Config) (activeItem : Item) (targetSlotId : String) (slot : Slot) : Slot :=
  if slot.id = targetSlotId then
    if slot.items.any fun e => e.id = activeItem.id then
      slot
    else if cfg.enableSlotLimit ∧ cfg.maxItemsPerSlot ≤ slot.items.length then
      slot
    else
      { slot with items := slot.items ++ [{ activeItem with slotId := some targetSlotId }] }
  else
    { slot with items := slot.items.filter fun e => e.id ≠ activeItem.id }

/-- The `handleDragEnd` handler for a drop onto a slot target: the dragged id
is looked up in the Item Store (absent id: no-op); the Item Store entry gets
`slotId := targetSlotId` unconditionally; the Slot Store is mapped through
`assignSlot`. -/
def assign (cfg : Config) (activeId targetSlotId : String) (s : AppState) : AppState :=
  match s.items.find? (fun it => it.id = activeId) with
  | none => s
  | some activeItem =>
      { items := s.items.map fun it =>
          if it.id = activeItem.id then { it with slotId := some targetSlotId } else it
        slots := s.slots.map (assignSlot cfg activeItem targetSlotId) }

/-- Display name `"Slot <k>"` generated by `addMoreSlots`. -/
def slotName (k : Nat) : String := "Slot " ++ toString k

/-- Slot id `"slot-<k>"` generated by `addMoreSlots`. -/
def slotIdOf (k : Nat) : String := "slot-" ++ toString k

/-- The `addMoreSlots` handler: appends two slots numbered from the current
slot count. -/
def addSlots (s : AppState) : AppState :=
  let currentSlotCount := s.slots.length
  { s with slots := s.slots ++
      [ { id := slotIdOf (currentSlotCount + 1)
          name := slotName (currentSlotCount + 1)
          items := [] },
        { id := slotIdOf (currentSlotCount + 2)
          name := slotName (currentSlotCount + 2)
          items := [] } ] }

/-- The ids collected by `removeTwoSlots` from the two slots about to be
removed (`slots.slice(-2)`), in traversal order. -/
def itemsToUnassign (s : AppState) : List String :=
  ((s.slots.drop (s.slots.length - 2)).map fun slot => slot.items.map Item.id).flatten

/-- The `removeTwoSlots` handler: no-op at 2 or fewer slots, otherwise drops
the last two slots and clears `slotId` on every item that was listed in them. -/
def removeSlots (s : AppState) : AppState :=
  if s.slots.length ≤ 2 then s
  else
    { items := s.items.map fun it =>
        if it.id ∈ itemsToUnassign s then { it with slotId := none } else it
      slots := s.slots.take (s.slots.length - 2) }

/-- The `removeItemFromSlot` handler: clears `slotId` on the named item and
filters it out of every slot's list. -/
def unassign (itemId : String) (s : AppState) : AppState :=
  { items := s.items.map fun it =>
      if it.id = itemId then { it with slotId := none } else it
    slots := s.slots.map fun slot =>
      { slot with items := slot.items.filter fun e => e.id ≠ itemId } }

/-- The fixed seed Item Store. -/
def initialItems : List Item :=
  [ { id := "1", content := "Task 1" },
    { id := "2", content := "Task 2" },
    { id := "3", content := "Task 3" },
    { id := "4", content := "Task 4" },
    { id := "5", content := "Task 5" },
    { id := "6", content := "Task 6" },
    { id := "7", content := "Task 7" },
    { id := "8", content := "Task 8" },
    { id := "9", content := "Task 9" },
    { id := "10", content := "Task 10" } ]

/-- The initial Slot Store: two empty slots. -/
def initialSlots : List Slot :=
  [ { id := "slot-1", name := "Slot 1", items := [] },
    { id := "slot-2", name := "Slot 2", items := [] } ]

/-- The initial state of the component. -/
def initState : AppState := { items := initialItems, slots := initialSlots }

/-- One UI-triggered mutation.  An `assign` step carries the id of an existing
slot, since the drop target handed to `handleDragEnd` is always one of the
currently rendered slots. -/
inductive Step (cfg : Config) (s : AppState) : AppState → Prop
  | doAssign (itemId targetSlotId : String)
      (hslot : targetSlotId ∈ s.slots.map Slot.id) :
      Step cfg s (assign cfg itemId targetSlotId s)
  | doAddSlots : Step cfg s (addSlots s)
  | doRemoveSlots : Step cfg s (removeSlots s)
  | doUnassign (itemId : String) : Step cfg s (unassign itemId s)

/-- States reachable from the initial state by UI events. -/
inductive Reachable (cfg : Config) : AppState → Prop
  | init : Reachable cfg initState
  | step {s t : AppState} : Reachable cfg s → Step cfg s t → Reachable cfg t

/-- Decidable check of the cross-store invariant for one item: if its
`slotId` is present then exactly one slot lists the item, and any slot
listing it has that id. -/
def checkItemInv (s : AppState) (it : Item) : Bool :=
  match it.slotId with
  | none => true
  | some sid =>
      decide ((s.slots.filter fun slot => slot.items.any fun e => e.id = it.id).length = 1)
        && s.slots.all fun slot =>
             !(slot.items.any fun e => e.id = it.id) || decide (slot.id = sid)

/-- Decidable check of the cross-store invariant for a whole state. -/
def checkInv (s : AppState) : Bool := s.items.all (checkItemInv s)

/-! ### Injectivity of the decimal representation used for slot ids

`addMoreSlots` builds ids with string interpolation of a `Nat`; freshness of
the generated ids rests on injectivity of `Nat.repr`, proved here through a
round trip with an explicit decimal-digit reading. -/

/-- Decimal digit characters of `n`, most significant first. -/
def decChars (n : Nat) : List Char :=
  if _h : n < 10 then [Nat.digitChar n]
  else decChars (n / 10) ++ [Nat.digitChar (n % 10)]
termination_by n
decreasing_by exact Nat.div_lt_self (by omega) (by omega)

/-- Numeric value of a decimal digit character. -/
def digitVal (c : Char) : Nat :=
  if c = '1' then 1 else if c = '2' then 2 else if c = '3' then 3
  else if c = '4' then 4 else if c = '5' then 5 else if c = '6' then 6
  else if c = '7' then 7 else if c = '8' then 8 else if c = '9' then 9 else 0

/-- Reading a decimal digit string back as a number. -/
def decValue (l : List Char) : Nat := l.foldl (fun acc c => 10 * acc + digitVal c) 0

/-! ### Structure of the Slot Store in reachable states -/

/-- The Slot Store always consists of slots `slot-1 .. slot-n` in order. -/
def SlotsCanonical (s : AppState) : Prop :=
  s.slots.map Slot.id = (List.range s.slots.length).map fun k => slotIdOf (k + 1)

/-! ### Well-formedness of the dual store -/

/-- The ids in the Item Store are pairwise distinct. -/
def ItemIdsNodup (s : AppState) : Prop := (s.items.map Item.id).Nodup

/-- The ids in the Slot Store are pairwise distinct. -/
def SlotIdsNodup (s : AppState) : Prop := (s.slots.map Slot.id).Nodup

/-- Every copy listed in a slot is an entry of the Item Store carrying that
slot's id. -/
def ListedMatchesStore (s : AppState) : Prop :=
  ∀ slot ∈ s.slots, ∀ e ∈ slot.items, e ∈ s.items ∧ e.slotId = some slot.id

/-- Sample configurations used for concrete runs: limiting disabled, and
limiting enabled with a maximum of two items per slot. -/
def cfgOff : Config := { enableSlotLimit := false, maxItemsPerSlot := 2 }

/-- Capacity limiting enabled with `maxItemsPerSlot = 2`. -/
def cfgLim : Config := { enableSlotLimit := true, maxItemsPerSlot := 2 }

/-- An item already sitting in `slot-1`, for the idempotence witness. -/
def redropState : AppState := assign cfgOff "3" "slot-1" initState

/-- Four slots with item 5 sitting in `slot-4`, about to be removed. -/
def removeDemoState : AppState := assign cfgOff "5" "slot-4" (addSlots initState)

/-- The (id, content) skeleton of the Item Store. -/
def itemsSkeleton (l : List Item) : List (String × String) :=
  l.map fun it => (it.id, it.content)

/-- Items 1 and 2 fill `slot-1` to the configured maximum of `cfgLim`. -/
def fullState : AppState := assign cfgLim "2" "slot-1" (assign cfgLim "1" "slot-1" initState)

/-- Dropping a third item onto the already full `slot-1` under `cfgLim`. -/
def overfullState : AppState := assign cfgLim "3" "slot-1" fullState

/-! ### Generic list helpers -/

theorem map_eq_self_of_fix {α : Type} {f : α → α} :
    ∀ l : List α, (∀ x ∈ l, f x = x) → l.map f = l := by
  intro l h
  induction l with
  | nil => rfl
  | cons a l ih =>
      simp only [List.map_cons, List.cons.injEq]
      exact ⟨h a (by simp), ih fun x hx => h x (by simp [hx])⟩

theorem forall₂_self_map {α β : Type} {r : α → β → Prop} {f : α → β} :
    ∀ l : List α, (∀ x ∈ l, r x (f x)) → List.Forall₂ r l (l.map f) := by
  intro l h
  induction l with
  | nil => exact List.Forall₂.nil
  | cons a l ih =>
      exact List.Forall₂.cons (h a (by simp)) (ih fun x hx => h x (by simp [hx]))

theorem toDigitsCore_eq_decChars (fuel : Nat) :
    ∀ n ds, n < fuel → Nat.toDigitsCore 10 fuel n ds = decChars n ++ ds := by
  induction fuel with
  | zero => intro n ds h; omega
  | succ fuel ih =>
      intro n ds h
      show (if n / 10 = 0 then Nat.digitChar (n % 10) :: ds
            else Nat.toDigitsCore 10 fuel (n / 10) (Nat.digitChar (n % 10) :: ds)) =
          decChars n ++ ds
      by_cases h10 : n / 10 = 0
      · have hn : n < 10 := by omega
        rw [if_pos h10, decChars, dif_pos hn, Nat.mod_eq_of_lt hn]
        rfl
      · have hn : ¬ n < 10 := by omega
        rw [if_neg h10, ih (n / 10) _ (by omega)]
        conv_rhs => rw [decChars]
        rw [dif_neg hn, List.append_assoc]
        rfl

theorem toDigits_eq_decChars (n : Nat) : Nat.toDigits 10 n = decChars n := by
  have h := toDigitsCore_eq_decChars (n + 1) n [] (by omega)
  simpa [Nat.toDigits] using h

theorem digitVal_digitChar : ∀ d < 10, digitVal (Nat.digitChar d) = d := by decide

theorem decValue_decChars : ∀ n : Nat, decValue (decChars n) = n := by
  intro n
  induction n using Nat.strong_induction_on with
  | _ n ih =>
      by_cases h : n < 10
      · rw [decChars, dif_pos h]
        simpa [decValue] using digitVal_digitChar n h
      · rw [decChars, dif_neg h]
        have hmod : digitVal (Nat.digitChar (n % 10)) = n % 10 :=
          digitVal_digitChar _ (by omega)
        have hrec := ih (n / 10) (by omega)
        simp only [decValue, List.foldl_append] at hrec ⊢
        simp only [List.foldl_cons, List.foldl_nil, hrec, hmod]
        omega

theorem natRepr_injective {m n : Nat} (h : Nat.repr m = Nat.repr n) : m = n := by
  have hdata : (Nat.toDigits 10 m) = (Nat.toDigits 10 n) := congrArg String.data h
  rw [toDigits_eq_decChars, toDigits_eq_decChars] at hdata
  calc m = decValue (decChars m) := (decValue_decChars m).symm
    _ = decValue (decChars n) := by rw [hdata]
    _ = n := decValue_decChars n

theorem slotIdOf_injective {a b : Nat} (h : slotIdOf a = slotIdOf b) : a = b := by
  have hdata := congrArg String.data h
  simp only [slotIdOf, String.data_append] at hdata
  have h2 : (toString a).data = (toString b).data := List.append_cancel_left hdata
  exact natRepr_injective (String.ext h2)

theorem assignSlot_id (cfg : Config) (a : Item) (t : String) (slot : Slot) :
    (assignSlot cfg a t slot).id = slot.id := by
  unfold assignSlot
  split
  · split
    · rfl
    · split <;> rfl
  · rfl

theorem assignSlot_name (cfg : Config) (a : Item) (t : String) (slot : Slot) :
    (assignSlot cfg a t slot).name = slot.name := by
  unfold assignSlot
  split
  · split
    · rfl
    · split <;> rfl
  · rfl

/-- On the target slot (not already holding the item, with capacity
available or limiting off) `assignSlot` appends the tagged copy. -/
theorem assignSlot_target (cfg : Config) (a : Item) (t : String) (slot : Slot)
    (hid : slot.id = t) (hnotin : ∀ e ∈ slot.items, e.id ≠ a.id)
    (hcap : cfg.enableSlotLimit = false ∨ slot.items.length < cfg.maxItemsPerSlot) :
    assignSlot cfg a t slot =
      { slot with items := slot.items ++ [{ a with slotId := some t }] } := by
  unfold assignSlot
  rw [if_pos hid]
  have hany : (slot.items.any fun e => e.id = a.id) = false := by
    rw [List.any_eq_false]
    intro e he
    simpa using hnotin e he
  rw [hany]
  have hfull : ¬ (cfg.enableSlotLimit = true ∧ cfg.maxItemsPerSlot ≤ slot.items.length) := by
    rcases hcap with h | h
    · rintro ⟨h1, _⟩
      rw [h] at h1
      exact Bool.false_ne_true h1
    · rintro ⟨_, h2⟩
      omega
  rw [if_neg hfull]
  rfl

/-- On a slot already holding the item, `assignSlot` is the identity. -/
theorem assignSlot_present (cfg : Config) (a : Item) (t : String) (slot : Slot)
    (hid : slot.id = t) (hex : ∃ e ∈ slot.items, e.id = a.id) :
    assignSlot cfg a t slot = slot := by
  unfold assignSlot
  rw [if_pos hid]
  have hany : (slot.items.any fun e => e.id = a.id) = true := by
    rw [List.any_eq_true]
    obtain ⟨e, he, heid⟩ := hex
    exact ⟨e, he, by simpa using heid⟩
  rw [hany]
  rfl

/-- On any non-target slot, `assignSlot` filters the item out. -/
theorem assignSlot_other (cfg : Config) (a : Item) (t : String) (slot : Slot)
    (hid : slot.id ≠ t) :
    assignSlot cfg a t slot =
      { slot with items := slot.items.filter fun e => e.id ≠ a.id } := by
  unfold assignSlot
  rw [if_neg hid]

theorem assign_slots_ids (cfg : Config) (activeId targetSlotId : String) (s : AppState) :
    (assign cfg activeId targetSlotId s).slots.map Slot.id = s.slots.map Slot.id := by
  unfold assign
  cases s.items.find? (fun it => it.id = activeId) with
  | none => rfl
  | some activeItem =>
      simp only [List.map_map]
      exact List.map_congr_left fun slot _ =>
        assignSlot_id cfg activeItem targetSlotId slot

theorem unassign_slots_ids (itemId : String) (s : AppState) :
    (unassign itemId s).slots.map Slot.id = s.slots.map Slot.id := by
  unfold unassign
  simp only [List.map_map]
  exact List.map_congr_left fun slot _ => rfl

theorem addSlots_slots (s : AppState) :
    (addSlots s).slots = s.slots ++
      [ { id := slotIdOf (s.slots.length + 1), name := slotName (s.slots.length + 1),
          items := [] },
        { id := slotIdOf (s.slots.length + 2), name := slotName (s.slots.length + 2),
          items := [] } ] := rfl

theorem reachable_canonical {cfg : Config} {s : AppState} (h : Reachable cfg s) :
    2 ≤ s.slots.length ∧ s.slots.length % 2 = 0 ∧ SlotsCanonical s := by
  induction h with
  | init => exact ⟨by decide, by decide, by unfold SlotsCanonical; decide⟩
  | step hr hstep ih =>
      obtain ⟨ih2, ihEven, ihCan⟩ := ih
      cases hstep with
      | doAssign itemId targetSlotId hslot =>
          rename_i t
          have hids := assign_slots_ids cfg itemId targetSlotId t
          have hlen : (assign cfg itemId targetSlotId t).slots.length = t.slots.length := by
            have := congrArg List.length hids
            simpa using this
          refine ⟨by omega, by omega, ?_⟩
          unfold SlotsCanonical
          rw [hids, hlen]
          exact ihCan
      | doAddSlots =>
          rename_i t
          have hlen : (addSlots t).slots.length = t.slots.length + 2 := by
            rw [addSlots_slots]; simp
          refine ⟨by omega, by omega, ?_⟩
          unfold SlotsCanonical
          rw [hlen, addSlots_slots]
          have h1 : List.range (t.slots.length + 2) =
              List.range t.slots.length ++ [t.slots.length, t.slots.length + 1] := by
            rw [List.range_succ, List.range_succ, List.append_assoc]
            rfl
          rw [h1]
          simp only [List.map_append]
          rw [← ihCan]
          rfl
      | doRemoveSlots =>
          rename_i t
          by_cases hle : t.slots.length ≤ 2
          · have hnoop : removeSlots t = t := by unfold removeSlots; rw [if_pos hle]
            rw [hnoop]
            exact ⟨ih2, ihEven, ihCan⟩
          · have h4 : 4 ≤ t.slots.length := by omega
            have hslots : (removeSlots t).slots = t.slots.take (t.slots.length - 2) := by
              unfold removeSlots
              rw [if_neg hle]
            have hlen : (removeSlots t).slots.length = t.slots.length - 2 := by
              rw [hslots, List.length_take]
              omega
            refine ⟨by omega, by omega, ?_⟩
            unfold SlotsCanonical
            rw [hlen, hslots, List.map_take, ihCan, ← List.map_take, List.take_range]
            have hmin : (t.slots.length - 2) ⊓ t.slots.length = t.slots.length - 2 := by omega
            rw [hmin]
      | doUnassign itemId =>
          rename_i t
          have hids := unassign_slots_ids itemId t
          have hlen : (unassign itemId t).slots.length = t.slots.length := by
            have := congrArg List.length hids
            simpa using this
          refine ⟨by omega, by omega, ?_⟩
          unfold SlotsCanonical
          rw [hids, hlen]
          exact ihCan

/-- The id generated from index `k + 1` is not among the first `n` canonical
ids when `n < k + 1`. -/
theorem slotIdOf_fresh {n k : Nat} (hk : n ≤ k) :
    slotIdOf (k + 1) ∉ (List.range n).map fun j => slotIdOf (j + 1) := by
  intro hmem
  rw [List.mem_map] at hmem
  obtain ⟨j, hj, hEq⟩ := hmem
  rw [List.mem_range] at hj
  have := slotIdOf_injective hEq
  omega

theorem find?_eq_of_nodup {l : List Item} {it : Item}
    (hN : (l.map Item.id).Nodup) (hit : it ∈ l) :
    l.find? (fun e => e.id = it.id) = some it := by
  cases hfind : l.find? (fun e => e.id = it.id) with
  | none =>
      rw [List.find?_eq_none] at hfind
      exact absurd (by simp) (hfind it hit)
  | some a =>
      have ha : a.id = it.id := by simpa using List.find?_some hfind
      have haMem : a ∈ l := List.mem_of_find?_eq_some hfind
      rw [List.inj_on_of_nodup_map hN haMem hit ha]

theorem listed_unique {s : AppState} (hN : ItemIdsNodup s) (hM : ListedMatchesStore s)
    {u v : Slot} (hu : u ∈ s.slots) (hv : v ∈ s.slots) {e f : Item}
    (he : e ∈ u.items) (hf : f ∈ v.items) (hid : e.id = f.id) : u.id = v.id := by
  obtain ⟨heS, heSlot⟩ := hM u hu e he
  obtain ⟨hfS, hfSlot⟩ := hM v hv f hf
  have hef : e = f := List.inj_on_of_nodup_map hN heS hfS hid
  rw [hef] at heSlot
  exact Option.some_inj.mp (heSlot.symm.trans hfSlot)

/-- Idempotent re-drop over any state satisfying the well-formedness
invariants of the dual store. -/
theorem assign_redrop_eq (cfg : Config) (s : AppState) (S : Slot) (it : Item)
    (hS : S ∈ s.slots) (hit : it ∈ S.items)
    (hN : ItemIdsNodup s) (hSN : SlotIdsNodup s) (hM : ListedMatchesStore s) :
    assign cfg it.id S.id s = s := by
  obtain ⟨hitS, hitSlot⟩ := hM S hS it hit
  have hfind := find?_eq_of_nodup hN hitS
  simp only [assign, hfind]
  have hitems : (s.items.map fun x =>
      if x.id = it.id then { x with slotId := some S.id } else x) = s.items := by
    apply map_eq_self_of_fix
    intro x hx
    by_cases hxid : x.id = it.id
    · rw [if_pos hxid]
      have hxit : x = it := List.inj_on_of_nodup_map hN hx hitS hxid
      subst hxit
      rw [← hitSlot]
    · rw [if_neg hxid]
  have hslots : s.slots.map (assignSlot cfg it S.id) = s.slots := by
    apply map_eq_self_of_fix
    intro u hu
    by_cases huid : u.id = S.id
    · have huS : u = S := List.inj_on_of_nodup_map hSN hu hS huid
      rw [huS]
      exact assignSlot_present cfg it S.id S rfl ⟨it, hit, rfl⟩
    · rw [assignSlot_other cfg it S.id u huid]
      have hfilter : (u.items.filter fun e => e.id ≠ it.id) = u.items := by
        apply List.filter_eq_self.mpr
        intro e he
        simp only [decide_eq_true_eq]
        intro heid
        exact huid (listed_unique hN hM hu hS he hit heid)
      rw [hfilter]
  rw [hitems, hslots]

/-- C3: a successful assignment (item found, target slot exists, item not
already in it, capacity available or limiting off) moves the item: it appears
in no non-target slot, the target slot appends the tagged copy at the end,
the Item Store entry carries the target id, and every other item and every
untouched slot keeps its previous value. -/
theorem assign_moves_item (cfg : Config) (s : AppState) (itemId targetSlotId : String)
    (i : Item) (T : Slot)
    (hfind : s.items.find? (fun e => e.id = itemId) = some i)
    (hT : T ∈ s.slots) (hTid : T.id = targetSlotId)
    (hnotin : ∀ e ∈ T.items, e.id ≠ itemId)
    (hcap : cfg.enableSlotLimit = false ∨ T.items.length < cfg.maxItemsPerSlot) :
    (∀ slot ∈ (assign cfg itemId targetSlotId s).slots, slot.id ≠ targetSlotId →
        ∀ e ∈ slot.items, e.id ≠ itemId) ∧
    { T with items := T.items ++ [{ i with slotId := some targetSlotId }] } ∈
        (assign cfg itemId targetSlotId s).slots ∧
    { i with slotId := some targetSlotId } ∈ (assign cfg itemId targetSlotId s).items ∧
    List.Forall₂ (fun a b => (a.id = itemId → b = { a with slotId := some targetSlotId }) ∧
        (a.id ≠ itemId → b = a)) s.items (assign cfg itemId targetSlotId s).items ∧
    List.Forall₂ (fun u v => v.id = u.id ∧ v.name = u.name ∧
        (u.id ≠ targetSlotId → (∀ e ∈ u.items, e.id ≠ itemId) → v = u))
      s.slots (assign cfg itemId targetSlotId s).slots := by
  have hiid : i.id = itemId := by simpa using List.find?_some hfind
  have hnotin' : ∀ e ∈ T.items, e.id ≠ i.id := by
    intro e he heq
    exact hnotin e he (heq.trans hiid)
  simp only [assign, hfind]
  refine ⟨?_, ?_, ?_, ?_, ?_⟩
  · intro slot hmem hne e he
    rw [List.mem_map] at hmem
    obtain ⟨u, hu, rfl⟩ := hmem
    by_cases huid : u.id = targetSlotId
    · exact absurd ((assignSlot_id cfg i targetSlotId u).trans huid) hne
    · rw [assignSlot_other cfg i targetSlotId u huid] at he
      have hkeep := List.of_mem_filter he
      simp only [decide_eq_true_eq] at hkeep
      exact fun h => hkeep (h.trans hiid.symm)
  · rw [List.mem_map]
    exact ⟨T, hT, assignSlot_target cfg i targetSlotId T hTid hnotin' hcap⟩
  · rw [List.mem_map]
    exact ⟨i, List.mem_of_find?_eq_some hfind, by rw [if_pos rfl]⟩
  · apply forall₂_self_map
    intro x hx
    constructor
    · intro hxid
      rw [if_pos (hxid.trans hiid.symm)]
    · intro hxid
      rw [if_neg fun h => hxid (h.trans hiid)]
  · apply forall₂_self_map
    intro u hu
    refine ⟨assignSlot_id cfg i targetSlotId u, assignSlot_name cfg i targetSlotId u, ?_⟩
    intro huid hclean
    rw [assignSlot_other cfg i targetSlotId u huid]
    have hfilter : (u.items.filter fun e => e.id ≠ i.id) = u.items := by
      apply List.filter_eq_self.mpr
      intro e he
      simp only [decide_eq_true_eq]
      exact fun h => hclean e he (h.trans hiid)
    rw [hfilter]

theorem assign_moves_item_witness :
    (∀ slot ∈ (assign cfgOff "3" "slot-1" initState).slots, slot.id ≠ "slot-1" →
        ∀ e ∈ slot.items, e.id ≠ "3") ∧
    { id := "slot-1", name := "Slot 1",
      items := [{ id := "3", content := "Task 3", slotId := some "slot-1" }] } ∈
        (assign cfgOff "3" "slot-1" initState).slots ∧
    { id := "3", content := "Task 3", slotId := some "slot-1" } ∈
        (assign cfgOff "3" "slot-1" initState).items ∧
    List.Forall₂ (fun a b => (a.id = "3" → b = { a with slotId := some "slot-1" }) ∧
        (a.id ≠ "3" → b = a)) initState.items (assign cfgOff "3" "slot-1" initState).items ∧
    List.Forall₂ (fun u v => v.id = u.id ∧ v.name = u.name ∧
        (u.id ≠ "slot-1" → (∀ e ∈ u.items, e.id ≠ "3") → v = u))
      initState.slots (assign cfgOff "3" "slot-1" initState).slots :=
  assign_moves_item cfgOff initState "3" "slot-1"
    { id := "3", content := "Task 3", slotId := none }
    { id := "slot-1", name := "Slot 1", items := [] }
    (by decide) (by decide) rfl (by decide) (by decide)

/-- In a well-formed store, no item listed in one of the surviving (leading)
slots is collected by `removeTwoSlots` for unassignment. -/
theorem surviving_not_collected {s : AppState}
    (hN : ItemIdsNodup s) (hSN : SlotIdsNodup s) (hM : ListedMatchesStore s)
    {slot : Slot} (hslot : slot ∈ s.slots.take (s.slots.length - 2))
    {e : Item} (he : e ∈ slot.items) : e.id ∉ itemsToUnassign s := by
  intro hbad
  unfold itemsToUnassign at hbad
  rw [List.mem_flatten] at hbad
  obtain ⟨l, hl, hel⟩ := hbad
  rw [List.mem_map] at hl
  obtain ⟨v, hv, rfl⟩ := hl
  rw [List.mem_map] at hel
  obtain ⟨f, hf, hfid⟩ := hel
  have hid : slot.id = v.id :=
    listed_unique hN hM (List.mem_of_mem_take hslot) (List.mem_of_mem_drop hv)
      he hf hfid.symm
  have hnd := hSN
  unfold SlotIdsNodup at hnd
  rw [← List.take_append_drop (s.slots.length - 2) s.slots, List.map_append,
    List.nodup_append] at hnd
  obtain ⟨-, -, hdisj⟩ := hnd
  apply hdisj (List.mem_map.mpr ⟨slot, hslot, rfl⟩)
  rw [hid]
  exact List.mem_map.mpr ⟨v, hv, rfl⟩

/-- Effect of `removeTwoSlots` on a well-formed store with at least 3 slots. -/
theorem removeSlots_effect (s : AppState) (h3 : 3 ≤ s.slots.length)
    (hN : ItemIdsNodup s) (hSN : SlotIdsNodup s) (hM : ListedMatchesStore s) :
    (removeSlots s).slots = s.slots.take (s.slots.length - 2) ∧
    List.Forall₂ (fun a b => b.id = a.id ∧ b.content = a.content ∧
        (a.id ∈ itemsToUnassign s → b.slotId = none) ∧
        (a.id ∉ itemsToUnassign s → b = a)) s.items (removeSlots s).items ∧
    (∀ slot ∈ s.slots.drop (s.slots.length - 2), ∀ e ∈ slot.items,
        e.id ∈ itemsToUnassign s) ∧
    (∀ slot ∈ (removeSlots s).slots, ∀ e ∈ slot.items, e.id ∉ itemsToUnassign s) := by
  have hgt : ¬ s.slots.length ≤ 2 := by omega
  have hslots : (removeSlots s).slots = s.slots.take (s.slots.length - 2) := by
    unfold removeSlots
    rw [if_neg hgt]
  have hitems : (removeSlots s).items = s.items.map fun it =>
      if it.id ∈ itemsToUnassign s then { it with slotId := none } else it := by
    unfold removeSlots
    rw [if_neg hgt]
  refine ⟨hslots, ?_, ?_, ?_⟩
  · rw [hitems]
    apply forall₂_self_map
    intro x _
    by_cases hmem : x.id ∈ itemsToUnassign s
    · rw [if_pos hmem]
      exact ⟨rfl, rfl, fun _ => rfl, fun h => absurd hmem h⟩
    · rw [if_neg hmem]
      exact ⟨rfl, rfl, fun h => absurd h hmem, fun _ => rfl⟩
  · intro slot hslot e he
    unfold itemsToUnassign
    rw [List.mem_flatten]
    exact ⟨slot.items.map Item.id, List.mem_map.mpr ⟨slot, hslot, rfl⟩,
      List.mem_map.mpr ⟨e, he, rfl⟩⟩
  · intro slot hslot e he
    rw [hslots] at hslot
    exact surviving_not_collected hN hSN hM hslot he

/-- C6: `removeTwoSlots` is a no-op at two or fewer slots, and every
reachable state keeps at least two slots. -/
theorem removeSlots_floor (cfg : Config) (s : AppState) :
    (s.slots.length ≤ 2 → removeSlots s = s) ∧
    (Reachable cfg s → 2 ≤ s.slots.length) := by
  constructor
  · intro h
    unfold removeSlots
    rw [if_pos h]
  · intro h
    exact (reachable_canonical h).1

theorem removeSlots_floor_witness :
    (initState.slots.length ≤ 2 ∧ removeSlots initState = initState) ∧
    2 ≤ initState.slots.length :=
  ⟨⟨by decide, (removeSlots_floor cfgOff initState).1 (by decide)⟩,
    (removeSlots_floor cfgOff initState).2 Reachable.init⟩

/-- C7: in every reachable state, `addMoreSlots` appends exactly two empty
slots carrying the generated display names and ids fresh for the current
store, and neither the Item Store nor the existing slots change. -/
theorem addSlots_appends_two_fresh {cfg : Config} {s : AppState} (h : Reachable cfg s) :
    (addSlots s).items = s.items ∧
    (addSlots s).slots = s.slots ++
      [ { id := slotIdOf (s.slots.length + 1), name := slotName (s.slots.length + 1),
          items := [] },
        { id := slotIdOf (s.slots.length + 2), name := slotName (s.slots.length + 2),
          items := [] } ] ∧
    slotIdOf (s.slots.length + 1) ∉ s.slots.map Slot.id ∧
    slotIdOf (s.slots.length + 2) ∉ s.slots.map Slot.id ∧
    slotIdOf (s.slots.length + 1) ≠ slotIdOf (s.slots.length + 2) := by
  obtain ⟨-, -, hcan⟩ := reachable_canonical h
  unfold SlotsCanonical at hcan
  refine ⟨rfl, rfl, ?_, ?_, ?_⟩
  · rw [hcan]
    exact slotIdOf_fresh (Nat.le_refl _)
  · rw [hcan]
    exact slotIdOf_fresh (Nat.le_succ _)
  · intro hEq
    have := slotIdOf_injective hEq
    omega

theorem addSlots_appends_two_fresh_witness :
    (addSlots initState).items = initState.items ∧
    (addSlots initState).slots = initState.slots ++
      [ { id := slotIdOf (initState.slots.length + 1),
          name := slotName (initState.slots.length + 1), items := [] },
        { id := slotIdOf (initState.slots.length + 2),
          name := slotName (initState.slots.length + 2), items := [] } ] ∧
    slotIdOf (initState.slots.length + 1) ∉ initState.slots.map Slot.id ∧
    slotIdOf (initState.slots.length + 2) ∉ initState.slots.map Slot.id ∧
    slotIdOf (initState.slots.length + 1) ≠ slotIdOf (initState.slots.length + 2) :=
  @addSlots_appends_two_fresh cfgOff initState Reachable.init

/-- C8: `removeItemFromSlot` clears the named item's `slotId`, removes it
from every slot's list, and keeps every other item and all slot ids and
names; on an item that is already unassigned and listed nowhere, both stores
are unchanged. -/
theorem unassign_clears_item (itemId : String) (s : AppState) :
    (∀ slot ∈ (unassign itemId s).slots, ∀ e ∈ slot.items, e.id ≠ itemId) ∧
    List.Forall₂ (fun a b => b.id = a.id ∧ b.content = a.content ∧
        (a.id = itemId → b.slotId = none) ∧ (a.id ≠ itemId → b = a))
      s.items (unassign itemId s).items ∧
    List.Forall₂ (fun u v => v.id = u.id ∧ v.name = u.name ∧
        ((∀ e ∈ u.items, e.id ≠ itemId) → v = u)) s.slots (unassign itemId s).slots ∧
    ((∀ a ∈ s.items, a.id = itemId → a.slotId = none) →
      (∀ u ∈ s.slots, ∀ e ∈ u.items, e.id ≠ itemId) → unassign itemId s = s) := by
  refine ⟨?_, ?_, ?_, ?_⟩
  · intro slot hmem e he
    simp only [unassign] at hmem
    rw [List.mem_map] at hmem
    obtain ⟨u, hu, rfl⟩ := hmem
    have hkeep := List.of_mem_filter he
    simpa using hkeep
  · apply forall₂_self_map
    intro x _
    by_cases hxid : x.id = itemId
    · rw [if_pos hxid]
      exact ⟨rfl, rfl, fun _ => rfl, fun h => absurd hxid h⟩
    · rw [if_neg hxid]
      exact ⟨rfl, rfl, fun h => absurd h hxid, fun _ => rfl⟩
  · apply forall₂_self_map
    intro u hu
    refine ⟨rfl, rfl, ?_⟩
    intro hclean
    have hfilter : (u.items.filter fun e => e.id ≠ itemId) = u.items := by
      apply List.filter_eq_self.mpr
      intro e he
      simpa using hclean e he
    show ({ u with items := u.items.filter fun e => e.id ≠ itemId } : Slot) = u
    rw [hfilter]
  · intro h1 h2
    unfold unassign
    have hitems : (s.items.map fun it =>
        if it.id = itemId then { it with slotId := none } else it) = s.items := by
      apply map_eq_self_of_fix
      intro x hx
      by_cases hxid : x.id = itemId
      · rw [if_pos hxid, ← h1 x hx hxid]
      · rw [if_neg hxid]
    have hslots : (s.slots.map fun slot =>
        { slot with items := slot.items.filter fun e => e.id ≠ itemId }) = s.slots := by
      apply map_eq_self_of_fix
      intro u hu
      have hfilter : (u.items.filter fun e => e.id ≠ itemId) = u.items := by
        apply List.filter_eq_self.mpr
        intro e he
        simpa using h2 u hu e he
      rw [hfilter]
    rw [hitems, hslots]

theorem unassign_clears_item_witness :
    (∀ slot ∈ (unassign "7" initState).slots, ∀ e ∈ slot.items, e.id ≠ "7") ∧
    List.Forall₂ (fun a b => b.id = a.id ∧ b.content = a.content ∧
        (a.id = "7" → b.slotId = none) ∧ (a.id ≠ "7" → b = a))
      initState.items (unassign "7" initState).items ∧
    List.Forall₂ (fun u v => v.id = u.id ∧ v.name = u.name ∧
        ((∀ e ∈ u.items, e.id ≠ "7") → v = u)) initState.slots (unassign "7" initState).slots ∧
    unassign "7" initState = initState :=
  ⟨(unassign_clears_item "7" initState).1,
    (unassign_clears_item "7" initState).2.1,
    (unassign_clears_item "7" initState).2.2.1,
    (unassign_clears_item "7" initState).2.2.2 (by decide) (by decide)⟩

theorem itemsSkeleton_map {f : Item → Item}
    (hf : ∀ it : Item, (f it).id = it.id ∧ (f it).content = it.content) (l : List Item) :
    itemsSkeleton (l.map f) = itemsSkeleton l := by
  unfold itemsSkeleton
  rw [List.map_map]
  apply List.map_congr_left
  intro a _
  simp only [Function.comp_apply, (hf a).1, (hf a).2]

/-- C9: the seed set has 10 items, and no operation creates or deletes items
or edits their ids or contents: the Item Store skeleton (length, order, id,
content) is invariant under all four operations — only `slotId` fields
change. -/
theorem ops_preserve_item_skeleton (cfg : Config) (activeId targetSlotId removeId : String)
    (s : AppState) :
    initialItems.length = 10 ∧
    itemsSkeleton (assign cfg activeId targetSlotId s).items = itemsSkeleton s.items ∧
    itemsSkeleton (addSlots s).items = itemsSkeleton s.items ∧
    itemsSkeleton (removeSlots s).items = itemsSkeleton s.items ∧
    itemsSkeleton (unassign removeId s).items = itemsSkeleton s.items := by
  refine ⟨rfl, ?_, rfl, ?_, ?_⟩
  · unfold assign
    cases s.items.find? (fun it => it.id = activeId) with
    | none => rfl
    | some a =>
        exact itemsSkeleton_map
          (fun it => by by_cases h : it.id = a.id <;> simp [h]) s.items
  · unfold removeSlots
    by_cases h : s.slots.length ≤ 2
    · rw [if_pos h]
    · rw [if_neg h]
      exact itemsSkeleton_map
        (fun it => by by_cases h2 : it.id ∈ itemsToUnassign s <;> simp [h2]) s.items
  · exact itemsSkeleton_map
      (fun it => by by_cases h : it.id = removeId <;> simp [h]) s.items

/-- C1 is violated by the code when capacity limiting is enabled: the state
reached by assigning items 1, 2, then 3 to `slot-1` under `cfgLim` has item 3
carrying `slotId = "slot-1"` while no slot lists it, so the cross-store sync
invariant fails. -/
theorem capacity_config_breaks_sync_invariant :
    Reachable cfgLim overfullState ∧
    checkInv overfullState = false ∧
    (overfullState.items.find? fun e => e.id = "3") =
      some { id := "3", content := "Task 3", slotId := some "slot-1" } ∧
    (∀ slot ∈ overfullState.slots, ∀ e ∈ slot.items, e.id ≠ "3") := by
  refine ⟨?_, by decide, by decide, by decide⟩
  exact Reachable.step (Reachable.step (Reachable.step Reachable.init
      (Step.doAssign "1" "slot-1" (by decide)))
      (Step.doAssign "2" "slot-1" (by decide)))
    (Step.doAssign "3" "slot-1" (by decide))

/-- C2 is violated by the code: in the reachable state where `slot-1` already
holds the configured maximum of 2 items and item 3 is not among them,
dropping item 3 on `slot-1` leaves the Slot Store unchanged but mutates the
Item Store (item 3's `slotId` is set anyway). -/
theorem full_slot_drop_mutates_item_store :
    Reachable cfgLim fullState ∧
    cfgLim.enableSlotLimit = true ∧
    (∃ slot ∈ fullState.slots, slot.id = "slot-1" ∧
        slot.items.length = cfgLim.maxItemsPerSlot ∧ ∀ e ∈ slot.items, e.id ≠ "3") ∧
    (assign cfgLim "3" "slot-1" fullState).slots = fullState.slots ∧
    (assign cfgLim "3" "slot-1" fullState).items ≠ fullState.items := by
  refine ⟨?_, by decide, by decide, by decide, by decide⟩
  exact Reachable.step (Reachable.step Reachable.init
      (Step.doAssign "1" "slot-1" (by decide)))
    (Step.doAssign "2" "slot-1" (by decide))

/-- C10: every reachable Slot Store has an even count of at least two slots,
whose ids are exactly `slot-1 .. slot-n` in order; consequently the two ids
`addMoreSlots` would generate from the current count collide with no existing
slot id. -/
theorem reachable_slot_store_shape {cfg : Config} {s : AppState} (h : Reachable cfg s) :
    2 ≤ s.slots.length ∧ s.slots.length % 2 = 0 ∧
    s.slots.map Slot.id = (List.range s.slots.length).map (fun k => slotIdOf (k + 1)) ∧
    slotIdOf (s.slots.length + 1) ∉ s.slots.map Slot.id ∧
    slotIdOf (s.slots.length + 2) ∉ s.slots.map Slot.id := by
  obtain ⟨h2, heven, hcan⟩ := reachable_canonical h
  unfold SlotsCanonical at hcan
  refine ⟨h2, heven, hcan, ?_, ?_⟩
  · rw [hcan]
    exact slotIdOf_fresh (Nat.le_refl _)
  · rw [hcan]
    exact slotIdOf_fresh (Nat.le_succ _)

theorem reachable_slot_store_shape_witness :
    2 ≤ initState.slots.length ∧ initState.slots.length % 2 = 0 ∧
    initState.slots.map Slot.id =
      (List.range initState.slots.length).map (fun k => slotIdOf (k + 1)) ∧
    slotIdOf (initState.slots.length + 1) ∉ initState.slots.map Slot.id ∧
    slotIdOf (initState.slots.length + 2) ∉ initState.slots.map Slot.id :=
  @reachable_slot_store_shape cfgOff initState Reachable.init

/-! ### Well-formedness holds in every reachable state -/

/-- On the full target slot (limit enabled, not already holding the item)
`assignSlot` is the identity. -/
theorem assignSlot_full (cfg : Config) (a : Item) (t : String) (slot : Slot)
    (hid : slot.id = t) (hex : ¬ ∃ x ∈ slot.items, x.id = a.id)
    (hcap : cfg.enableSlotLimit = true ∧ cfg.maxItemsPerSlot ≤ slot.items.length) :
    assignSlot cfg a t slot = slot := by
  unfold assignSlot
  rw [if_pos hid]
  have hany : (slot.items.any fun x => x.id = a.id) = false := by
    rw [List.any_eq_false]
    intro x hx
    simp only [decide_eq_true_eq]
    exact fun hh => hex ⟨x, hx, hh⟩
  rw [hany, if_pos hcap]
  rfl

/-- On the target slot with room (or limiting off) and the item absent,
`assignSlot` appends the tagged copy; stated from the raw branch guards. -/
theorem assignSlot_append (cfg : Config) (a : Item) (t : String) (slot : Slot)
    (hid : slot.id = t) (hex : ¬ ∃ x ∈ slot.items, x.id = a.id)
    (hcap : ¬ (cfg.enableSlotLimit = true ∧ cfg.maxItemsPerSlot ≤ slot.items.length)) :
    assignSlot cfg a t slot =
      { slot with items := slot.items ++ [{ a with slotId := some t }] } := by
  unfold assignSlot
  rw [if_pos hid]
  have hany : (slot.items.any fun x => x.id = a.id) = false := by
    rw [List.any_eq_false]
    intro x hx
    simp only [decide_eq_true_eq]
    exact fun hh => hex ⟨x, hx, hh⟩
  rw [hany, if_neg hcap]
  rfl

theorem assign_items_ids (cfg : Config) (activeId targetSlotId : String) (s : AppState) :
    (assign cfg activeId targetSlotId s).items.map Item.id = s.items.map Item.id := by
  unfold assign
  cases s.items.find? (fun it => it.id = activeId) with
  | none => rfl
  | some a =>
      simp only [List.map_map]
      apply List.map_congr_left
      intro x _
      simp only [Function.comp_apply]
      split <;> rfl

theorem removeSlots_items_ids (s : AppState) :
    (removeSlots s).items.map Item.id = s.items.map Item.id := by
  unfold removeSlots
  by_cases h : s.slots.length ≤ 2
  · rw [if_pos h]
  · rw [if_neg h]
    simp only [List.map_map]
    apply List.map_congr_left
    intro x _
    simp only [Function.comp_apply]
    split <;> rfl

theorem unassign_items_ids (itemId : String) (s : AppState) :
    (unassign itemId s).items.map Item.id = s.items.map Item.id := by
  unfold unassign
  simp only [List.map_map]
  apply List.map_congr_left
  intro x _
  simp only [Function.comp_apply]
  split <;> rfl

theorem reachable_slotIds_nodup {cfg : Config} {s : AppState} (h : Reachable cfg s) :
    SlotIdsNodup s := by
  obtain ⟨-, -, hcan⟩ := reachable_canonical h
  unfold SlotsCanonical at hcan
  unfold SlotIdsNodup
  rw [hcan]
  apply List.Nodup.map
  · intro a b hab
    have := slotIdOf_injective hab
    omega
  · exact List.nodup_range _

theorem assign_listed_matches (cfg : Config) (itemId targetSlotId : String) (t : AppState)
    (ihM : ListedMatchesStore t) :
    ListedMatchesStore (assign cfg itemId targetSlotId t) := by
  cases hfind : t.items.find? (fun e => e.id = itemId) with
  | none =>
      have heq : assign cfg itemId targetSlotId t = t := by
        unfold assign
        rw [hfind]
      rw [heq]
      exact ihM
  | some a =>
      intro u hu e he
      simp only [assign, hfind] at hu ⊢
      rw [List.mem_map] at hu
      obtain ⟨v, hv, rfl⟩ := hu
      by_cases hvid : v.id = targetSlotId
      · by_cases hex : ∃ x ∈ v.items, x.id = a.id
        · rw [assignSlot_present cfg a targetSlotId v hvid hex] at he ⊢
          obtain ⟨heS, heSlot⟩ := ihM v hv e he
          refine ⟨List.mem_map.mpr ⟨e, heS, ?_⟩, heSlot⟩
          by_cases heid : e.id = a.id
          · rw [if_pos heid]
            have hslotid : some targetSlotId = e.slotId := by rw [heSlot, hvid]
            rw [hslotid]
          · rw [if_neg heid]
        · by_cases hcap : cfg.enableSlotLimit = true ∧ cfg.maxItemsPerSlot ≤ v.items.length
          · rw [assignSlot_full cfg a targetSlotId v hvid hex hcap] at he ⊢
            obtain ⟨heS, heSlot⟩ := ihM v hv e he
            have heid : e.id ≠ a.id := fun hh => hex ⟨e, he, hh⟩
            exact ⟨List.mem_map.mpr ⟨e, heS, by rw [if_neg heid]⟩, heSlot⟩
          · rw [assignSlot_append cfg a targetSlotId v hvid hex hcap] at he ⊢
            rw [List.mem_append] at he
            cases he with
            | inl hev =>
                obtain ⟨heS, heSlot⟩ := ihM v hv e hev
                have heid : e.id ≠ a.id := fun hh => hex ⟨e, hev, hh⟩
                exact ⟨List.mem_map.mpr ⟨e, heS, by rw [if_neg heid]⟩, heSlot⟩
            | inr hec =>
                rw [List.mem_singleton] at hec
                subst hec
                constructor
                · exact List.mem_map.mpr
                    ⟨a, List.mem_of_find?_eq_some hfind, by rw [if_pos rfl]⟩
                · simp [hvid]
      · rw [assignSlot_other cfg a targetSlotId v hvid] at he ⊢
        obtain ⟨hev, hekeep⟩ := List.mem_filter.mp he
        simp only [decide_eq_true_eq] at hekeep
        obtain ⟨heS, heSlot⟩ := ihM v hv e hev
        exact ⟨List.mem_map.mpr ⟨e, heS, by rw [if_neg hekeep]⟩, heSlot⟩

theorem addSlots_listed_matches (t : AppState) (ihM : ListedMatchesStore t) :
    ListedMatchesStore (addSlots t) := by
  intro u hu e he
  rw [addSlots_slots, List.mem_append] at hu
  cases hu with
  | inl h => exact ihM u h e he
  | inr h =>
      rw [List.mem_cons, List.mem_singleton] at h
      rcases h with h | h <;> subst h <;> exact absurd he (List.not_mem_nil e)

theorem removeSlots_listed_matches (t : AppState)
    (ihN : ItemIdsNodup t) (ihSN : SlotIdsNodup t) (ihM : ListedMatchesStore t) :
    ListedMatchesStore (removeSlots t) := by
  by_cases hle : t.slots.length ≤ 2
  · have heq : removeSlots t = t := by
      unfold removeSlots
      rw [if_pos hle]
    rw [heq]
    exact ihM
  · intro u hu e he
    have hslots : (removeSlots t).slots = t.slots.take (t.slots.length - 2) := by
      unfold removeSlots
      rw [if_neg hle]
    have hitems : (removeSlots t).items = t.items.map fun it =>
        if it.id ∈ itemsToUnassign t then { it with slotId := none } else it := by
      unfold removeSlots
      rw [if_neg hle]
    rw [hslots] at hu
    obtain ⟨heS, heSlot⟩ := ihM u (List.mem_of_mem_take hu) e he
    have hnotc : e.id ∉ itemsToUnassign t :=
      surviving_not_collected ihN ihSN ihM hu he
    constructor
    · rw [hitems]
      exact List.mem_map.mpr ⟨e, heS, by rw [if_neg hnotc]⟩
    · exact heSlot

theorem unassign_listed_matches (itemId : String) (t : AppState)
    (ihM : ListedMatchesStore t) : ListedMatchesStore (unassign itemId t) := by
  intro u hu e he
  simp only [unassign] at hu ⊢
  rw [List.mem_map] at hu
  obtain ⟨v, hv, rfl⟩ := hu
  obtain ⟨hev, hekeep⟩ := List.mem_filter.mp he
  simp only [decide_eq_true_eq] at hekeep
  obtain ⟨heS, heSlot⟩ := ihM v hv e hev
  exact ⟨List.mem_map.mpr ⟨e, heS, by rw [if_neg hekeep]⟩, heSlot⟩

/-- Every reachable state is well-formed: item ids are distinct and each
slot's listed copies agree with the Item Store. -/
theorem reachable_wf {cfg : Config} {s : AppState} (h : Reachable cfg s) :
    ItemIdsNodup s ∧ ListedMatchesStore s := by
  induction h with
  | init =>
      constructor
      · unfold ItemIdsNodup
        decide
      · unfold ListedMatchesStore
        decide
  | step hr hstep ih =>
      obtain ⟨ihN, ihM⟩ := ih
      cases hstep with
      | doAssign itemId targetSlotId hslot =>
          rename_i t
          refine ⟨?_, assign_listed_matches cfg itemId targetSlotId t ihM⟩
          unfold ItemIdsNodup
          rw [assign_items_ids]
          exact ihN
      | doAddSlots =>
          rename_i t
          exact ⟨ihN, addSlots_listed_matches t ihM⟩
      | doRemoveSlots =>
          rename_i t
          refine ⟨?_, removeSlots_listed_matches t ihN (reachable_slotIds_nodup hr) ihM⟩
          unfold ItemIdsNodup
          rw [removeSlots_items_ids]
          exact ihN
      | doUnassign itemId =>
          rename_i t
          refine ⟨?_, unassign_listed_matches itemId t ihM⟩
          unfold ItemIdsNodup
          rw [unassign_items_ids]
          exact ihN

/-- C4: in any reachable state, assigning an item already present in slot `S`
to `S` again yields a state equal to the prior state (idempotent re-drop). -/
theorem assign_idempotent_redrop (cfg : Config) (s : AppState) (S : Slot) (it : Item)
    (h : Reachable cfg s) (hS : S ∈ s.slots) (hit : it ∈ S.items) :
    assign cfg it.id S.id s = s :=
  assign_redrop_eq cfg s S it hS hit (reachable_wf h).1
    (reachable_slotIds_nodup h) (reachable_wf h).2

theorem assign_idempotent_redrop_witness :
    assign cfgOff "3" "slot-1" redropState = redropState :=
  assign_idempotent_redrop cfgOff redropState
    { id := "slot-1", name := "Slot 1",
      items := [{ id := "3", content := "Task 3", slotId := some "slot-1" }] }
    { id := "3", content := "Task 3", slotId := some "slot-1" }
    (Reachable.step Reachable.init (Step.doAssign "3" "slot-1" (by decide)))
    (by decide) (by decide)

/-- C5: in any reachable state with at least 3 slots, `removeTwoSlots` keeps
exactly the leading slots, every item listed in one of the two removed slots
is collected and has its `slotId` cleared (no item is deleted, ids and
contents survive), and the store entry of any item listed in a surviving slot
is untouched. -/
theorem removeSlots_removes_last_two (cfg : Config) (s : AppState)
    (h : Reachable cfg s) (h3 : 3 ≤ s.slots.length) :
    (removeSlots s).slots = s.slots.take (s.slots.length - 2) ∧
    List.Forall₂ (fun a b => b.id = a.id ∧ b.content = a.content ∧
        (a.id ∈ itemsToUnassign s → b.slotId = none) ∧
        (a.id ∉ itemsToUnassign s → b = a)) s.items (removeSlots s).items ∧
    (∀ slot ∈ s.slots.drop (s.slots.length - 2), ∀ e ∈ slot.items,
        e.id ∈ itemsToUnassign s) ∧
    (∀ slot ∈ (removeSlots s).slots, ∀ e ∈ slot.items, e.id ∉ itemsToUnassign s) :=
  removeSlots_effect s h3 (reachable_wf h).1 (reachable_slotIds_nodup h)
    (reachable_wf h).2

theorem removeSlots_removes_last_two_witness :
    (removeSlots removeDemoState).slots =
      removeDemoState.slots.take (removeDemoState.slots.length - 2) ∧
    List.Forall₂ (fun a b => b.id = a.id ∧ b.content = a.content ∧
        (a.id ∈ itemsToUnassign removeDemoState → b.slotId = none) ∧
        (a.id ∉ itemsToUnassign removeDemoState → b = a))
      removeDemoState.items (removeSlots removeDemoState).items ∧
    (∀ slot ∈ removeDemoState.slots.drop (removeDemoState.slots.length - 2),
        ∀ e ∈ slot.items, e.id ∈ itemsToUnassign removeDemoState) ∧
    (∀ slot ∈ (removeSlots removeDemoState).slots, ∀ e ∈ slot.items,
        e.id ∉ itemsToUnassign removeDemoState) :=
  removeSlots_removes_last_two cfgOff removeDemoState
    (Reachable.step (Reachable.step Reachable.init Step.doAddSlots)
      (Step.doAssign "5" "slot-4" (by decide)))
    (by decide)
